import Mathlib

/-
Verification of the dependency-graph tool in src/main.py.

The core of the program consists of four functions over an in-memory
package index:

  get_package_dependencies  (spec name: DirectDependencies)
  build_dependency_graph    (spec name: BuildGraph)
  detect_cycles             (spec name: FindCycle)
  topological_sort          (spec name: TopoSort)

The index is a Python dict mapping a package name to a dict with keys
version, dependencies, description.  Python dicts preserve insertion
order and have unique keys, so they are embedded as association lists.

A crucial low-level fact of the source: in build_dependency_graph the
assignment  graph[cur_pkg] = dependencies  stores the very list object
held by the index record, and  graph.setdefault(cur_pkg, []).append(dep)
appends to that same object while the  for dep in dependencies  loop is
iterating over it.  The embedding models this shared list explicitly:
the inner loop walks the list by position and appends to it, and the
final list is written back into the index record (the mutation) as well
as into the graph.  Divergence of the Python loop is modelled by a fuel
parameter: the embedded function returns none exactly when every finite
amount of fuel is exhausted.
-/

namespace Main

/-- Package record: the value stored in the index for one package. -/
structure PackageRecord where
  version : String
  dependencies : List String
  description : String
deriving DecidableEq

/-- Package index: dict name -> record, as an insertion-ordered association list. -/
abbrev PackageIndex := List (String × PackageRecord)

/-- Dependency graph: dict name -> adjacency list. -/
abbrev Graph := List (String × List String)

/-- Dict lookup in the index (first matching key, as in a dict). -/
def lookupIdx (idx : PackageIndex) (n : String) : Option PackageRecord :=
  (List.find? (fun p => p.1 == n) idx).map Prod.snd

/-- Membership test, modelling the Python expression  name in packages_data. -/
def memIdx (idx : PackageIndex) (n : String) : Bool :=
  (lookupIdx idx n).isSome

/-- Version of a package in the index, modelling  packages_data[dep]["version"].
In the program this is only evaluated when the key is present; the default
branch is unreachable in those states. -/
def versionOf (idx : PackageIndex) (n : String) : String :=
  ((lookupIdx idx n).map PackageRecord.version).getD ""

/-- Write a new dependencies list into the record of the (first) entry with
the given key, modelling the in-place mutation of the shared list object. -/
def setDeps : PackageIndex → String → List String → PackageIndex
  | [], _, _ => []
  | (k, r) :: t, n, ds =>
    if k == n then (k, { r with dependencies := ds }) :: t
    else (k, r) :: setDeps t n ds

/-- Embedding of get_package_dependencies (src/main.py lines 96-105).
Returns None when the name is absent; otherwise the record dependency list.
The version-mismatch print is output only and has no value-level effect. -/
def get_package_dependencies (package_name _version : String)
    (packages_data : PackageIndex) : Option (List String) :=
  (lookupIdx packages_data package_name).map PackageRecord.dependencies

/-- Keys of a graph, modelling iteration over the dict. -/
def keysOf (g : Graph) : List String := g.map Prod.fst

/-- Adjacency list of a node, modelling  graph.get(node, []). -/
def adjOf (g : Graph) (n : String) : List String :=
  ((List.find? (fun p => p.1 == n) g).map Prod.snd).getD []

/-- Membership test, modelling the Python expression  dep in graph. -/
def isKey (g : Graph) (n : String) : Bool :=
  g.any (fun p => p.1 == n)

/-- Inner loop of build_dependency_graph (src/main.py lines 122-127):
for dep in dependencies, walked by position i because the loop body can
append to the very list it iterates (the graph entry aliases the record
list).  State: the shared list, the position, the visited set, and the
enqueued entries.  Returns the final shared list, visited set and new
queue entries, or none when fuel runs out (the Python loop diverges). -/
def processDeps (packages_data : PackageIndex) (depth : Nat) :
    Nat → List String → Nat → List String → List (String × String × Nat) →
    Option (List String × List String × List (String × String × Nat))
  | 0, _, _, _, _ => none
  | fuel + 1, deps, i, visited, acc =>
    if h : i < deps.length then
      let dep := deps.get ⟨i, h⟩
      if dep ∉ visited ∧ memIdx packages_data dep = true then
        processDeps packages_data depth fuel deps (i + 1) (visited ++ [dep])
          (acc ++ [(dep, versionOf packages_data dep, depth + 1)])
      else if memIdx packages_data dep = false then
        processDeps packages_data depth fuel (deps ++ [dep]) (i + 1) visited acc
      else
        processDeps packages_data depth fuel deps (i + 1) visited acc
    else
      some (deps, visited, acc)

/-- Outer BFS loop of build_dependency_graph (src/main.py lines 114-128).
The index is threaded because the inner loop can mutate a record list.
Queue entries are (name, version, depth) triples. -/
def bfs (max_depth : Nat) :
    Nat → PackageIndex → List (String × String × Nat) → List String → Graph →
    Option (Graph × PackageIndex)
  | 0, _, _, _, _ => none
  | _ + 1, idx, [], _, graph => some (graph, idx)
  | fuel + 1, idx, (cur, ver, depth) :: rest, visited, graph =>
    if max_depth ≤ depth then
      bfs max_depth fuel idx rest visited graph
    else
      match get_package_dependencies cur ver idx with
      | none => bfs max_depth fuel idx rest visited graph
      | some deps =>
        match processDeps idx depth (fuel + 1) deps 0 visited [] with
        | none => none
        | some (deps2, visited2, newq) =>
          bfs max_depth fuel (setDeps idx cur deps2) (rest ++ newq) visited2
            (graph ++ [(cur, deps2)])

/-- Embedding of build_dependency_graph (src/main.py lines 108-128).
Returns the built graph together with the index as left after the call
(record lists can be mutated through the shared list object), or none if
the given fuel does not suffice, which models divergence when it holds
for every fuel. -/
def build_dependency_graph (fuel : Nat) (package_name version : String)
    (packages_data : PackageIndex) (max_depth : Nat) :
    Option (Graph × PackageIndex) :=
  bfs max_depth fuel packages_data [(package_name, version, 0)] [package_name] []

/-- Literal index of the section 8 scenario and of the fallback test data:
A:[B,C], B:[D], C:[D,E], D:[], E:[A]. -/
def exIdx : PackageIndex :=
  [ ("A", ⟨"1.0", ["B", "C"], "Package A"⟩),
    ("B", ⟨"2.0", ["D"], "Package B"⟩),
    ("C", ⟨"3.0", ["D", "E"], "Package C"⟩),
    ("D", ⟨"4.0", [], "Package D"⟩),
    ("E", ⟨"5.0", ["A"], "Package E"⟩) ]

/-- Graph built from exIdx with root A and depth 3. -/
def exGraph : Graph :=
  [ ("A", ["B", "C"]),
    ("B", ["D"]),
    ("C", ["D", "E"]),
    ("D", []),
    ("E", ["A"]) ]

example : build_dependency_graph 100 "A" "latest" exIdx 3 = some (exGraph, exIdx) := by
  decide

/-
Cycle detector, src/main.py lines 153-174.

Python recursion: dfs(node, path) with a global visited set; each child
receives path.copy() of the list obtained by appending node, so the path
argument is effectively immutable per branch.  Recursion depth is bounded
because every call that proceeds past the two guards adds a fresh node to
the monotone visited set; the embedding makes that bound explicit with a
fuel argument, and detect_cycles passes one more than the number of
distinct names, which is always sufficient.
-/

/-- All names a DFS over the graph can ever touch: keys and listed names. -/
def allNames (g : Graph) : List String :=
  keysOf g ++ (g.map Prod.snd).flatten

/-- Cycle extraction, modelling  path[path.index(node):] + [node]. -/
def cycleFrom (path : List String) (node : String) : List String :=
  path.drop (path.indexOf node) ++ [node]

/-- Embedding of the dfs helper in detect_cycles.  Returns the first cycle
found (as in the source: the suffix of the current path from the first
occurrence of the repeated node, plus that node) and the enlarged visited
set.  The fold over the adjacency list models the for-loop with its early
return on a found cycle. -/
def dfs (g : Graph) : Nat → String → List String → List String →
    Option (List String) × List String
  | 0, _, _, visited => (none, visited)
  | fuel + 1, node, path, visited =>
    if node ∈ path then (some (cycleFrom path node), visited)
    else if node ∈ visited then (none, visited)
    else
      List.foldl
        (fun acc x =>
          match acc with
          | (some c, v) => (some c, v)
          | (none, v) => dfs g fuel x (path ++ [node]) v)
        (none, visited ++ [node]) (adjOf g node)

/-- Sequential presentation of the fold inside dfs, used for induction. -/
def dfsList (g : Graph) (fuel : Nat) (path : List String) :
    List String → Option (List String) × List String →
    Option (List String) × List String
  | [], acc => acc
  | x :: xs, acc =>
    match acc with
    | (some c, v) => (some c, v)
    | (none, v) => dfsList g fuel path xs (dfs g fuel x path v)

/-- Outer loop of detect_cycles: try every key not yet visited. -/
def detectLoop (g : Graph) (fuel : Nat) :
    List String → List String → Option (List String)
  | [], _ => none
  | n :: rest, visited =>
    if n ∈ visited then detectLoop g fuel rest visited
    else
      match dfs g fuel n [] visited with
      | (some c, _) => some c
      | (none, visited2) => detectLoop g fuel rest visited2

/-- Embedding of detect_cycles (src/main.py lines 153-174). -/
def detect_cycles (g : Graph) : Option (List String) :=
  detectLoop g ((allNames g).dedup.length + 1) (keysOf g) []

example : detect_cycles exGraph = some ["A", "C", "E", "A"] := by decide

example : detect_cycles [("A", ["B"]), ("B", [])] = none := by decide

/-
Topological sorter, src/main.py lines 197-219.

The two auxiliary dicts inv_graph and in_degree are keyed exactly by the
graph keys; they are embedded as total functions updated pointwise, which
is the dict-as-mapping semantics.  The while-loop pops each key at most
once (a key is enqueued at most once: seeding ranges once over the keys,
and a later enqueue happens only on the unique transition of its counter
to exactly zero), so a fuel of the number of keys is an upper bound on
the number of iterations.
-/

/-- Inverse adjacency, modelling the first loop of topological_sort:
for every edge package -> dep with dep a key, append package to the entry
of dep. -/
def inv_graph_fun (g : Graph) : String → List String :=
  g.foldl
    (fun acc p =>
      p.2.foldl
        (fun acc2 dep =>
          if isKey g dep = true then
            fun x => if x = dep then acc2 dep ++ [p.1] else acc2 x
          else acc2)
        acc)
    (fun _ => [])

/-- In-degree computation, modelling the second loop of topological_sort:
for node in graph, for dep in inv_graph[node], in_degree[dep] += 1. -/
def in_degree_fun (g : Graph) (inv : String → List String) : String → Int :=
  g.foldl
    (fun deg p =>
      (inv p.1).foldl
        (fun d2 dep => fun x => if x = dep then d2 dep + 1 else d2 x)
        deg)
    (fun _ => 0)

/-- Initial ready-queue: keys whose in-degree is zero, in key order. -/
def readyQueue (g : Graph) : List String :=
  (keysOf g).filter (fun n => in_degree_fun g (inv_graph_fun g) n == 0)

/-- Body of one Kahn iteration: decrement the counter of each element of
inv_graph[node] in turn, enqueueing every element whose counter reaches
exactly zero.  State: the queue behind the popped node, and the counters. -/
def decAll (lst : List String) (acc : List String × (String → Int)) :
    List String × (String → Int) :=
  lst.foldl
    (fun (acc : List String × (String → Int)) dep =>
      if acc.2 dep - 1 = 0 then
        (acc.1 ++ [dep], fun x => if x = dep then acc.2 dep - 1 else acc.2 x)
      else
        (acc.1, fun x => if x = dep then acc.2 dep - 1 else acc.2 x))
    acc

/-- Kahn loop of topological_sort: pop a node, append it to the order,
decrement the counters of its dependents, enqueueing those that reach
exactly zero. -/
def kahnLoop (inv : String → List String) :
    Nat → List String → (String → Int) → List String → List String
  | 0, _, _, order => order
  | _ + 1, [], _, order => order
  | fuel + 1, node :: rest, deg, order =>
    kahnLoop inv fuel (decAll (inv node) (rest, deg)).1 (decAll (inv node) (rest, deg)).2
      (order ++ [node])

/-- Embedding of topological_sort (src/main.py lines 197-219). -/
def topological_sort (g : Graph) : List String × Bool :=
  if g.isEmpty then ([], false)
  else
    let inv := inv_graph_fun g
    let order := kahnLoop inv g.length (readyQueue g) (in_degree_fun g inv) []
    (order, order.length != g.length)

example : topological_sort [("A", ["B", "C"]), ("B", ["D"]), ("C", ["D"]), ("D", [])]
    = (["D", "B", "C", "A"], false) := by decide

example : topological_sort exGraph = (["D", "B"], true) := by decide

example : topological_sort [("A", ["B"]), ("B", [])] = (["B", "A"], false) := by decide

/- Basic lemmas about the index operations. -/

theorem lookupIdx_cons (k : String) (r : PackageRecord) (t : PackageIndex) (n : String) :
    lookupIdx ((k, r) :: t) n = if (k == n) = true then some r else lookupIdx t n := by
  by_cases h : (k == n) = true <;> simp [lookupIdx, List.find?_cons, h]

theorem setDeps_self (idx : PackageIndex) (n : String) (r : PackageRecord)
    (h : lookupIdx idx n = some r) : setDeps idx n r.dependencies = idx := by
  induction idx with
  | nil => simp [lookupIdx] at h
  | cons p t ih =>
    obtain ⟨k, rec⟩ := p
    rw [lookupIdx_cons] at h
    by_cases hk : (k == n) = true
    · rw [if_pos hk] at h
      obtain rfl : rec = r := by injection h
      simp [setDeps, hk]
    · rw [if_neg hk] at h
      simp [setDeps, hk, ih h]

/- The inner dependency loop.  A dependency name absent from the index is
appended to the list being iterated; the suffix not yet scanned therefore
always keeps an absent name, and the loop exhausts any finite fuel. -/

theorem processDeps_absent_none (idx : PackageIndex) (depth : Nat) :
    ∀ fuel deps i visited acc,
      (∃ j d, i ≤ j ∧ deps[j]? = some d ∧ memIdx idx d = false) →
      processDeps idx depth fuel deps i visited acc = none := by
  intro fuel
  induction fuel with
  | zero => intro deps i visited acc _; rfl
  | succ fuel ih =>
    intro deps i visited acc h
    obtain ⟨j, d, hij, hjd, habs⟩ := h
    have hj : j < deps.length := by
      by_contra hc
      rw [List.getElem?_eq_none (Nat.le_of_not_lt hc)] at hjd
      exact Option.noConfusion hjd
    have hi : i < deps.length := lt_of_le_of_lt hij hj
    have hne : ∀ hmem : memIdx idx (deps.get ⟨i, hi⟩) = true, i + 1 ≤ j := by
      intro hmem
      rcases Nat.lt_or_ge i j with hlt | hge
      · exact hlt
      · exfalso
        obtain rfl : i = j := Nat.le_antisymm hij hge
        rw [List.getElem?_eq_getElem hi] at hjd
        obtain rfl : deps[i] = d := by injection hjd
        rw [List.get_eq_getElem] at hmem
        rw [hmem] at habs
        exact Bool.noConfusion habs
    rw [processDeps, dif_pos hi]
    by_cases h1 : deps.get ⟨i, hi⟩ ∉ visited ∧ memIdx idx (deps.get ⟨i, hi⟩) = true
    · rw [if_pos h1]
      exact ih _ _ _ _ ⟨j, d, hne h1.2, hjd, habs⟩
    · rw [if_neg h1]
      by_cases h2 : memIdx idx (deps.get ⟨i, hi⟩) = false
      · rw [if_pos h2]
        refine ih _ _ _ _ ⟨deps.length, deps.get ⟨i, hi⟩, hi, ?_, h2⟩
        rw [List.getElem?_concat_length]
      · rw [if_neg h2]
        have hmem : memIdx idx (deps.get ⟨i, hi⟩) = true := by
          cases hb : memIdx idx (deps.get ⟨i, hi⟩) with
          | false => exact absurd hb h2
          | true => rfl
        exact ih _ _ _ _ ⟨j, d, hne hmem, hjd, habs⟩

/- When the inner loop completes, the shared list was never appended to
(an append would diverge), so the record list is returned unchanged, and
every new queue entry is a dependency taken from that list at depth+1. -/

theorem processDeps_some (idx : PackageIndex) (depth : Nat) :
    ∀ fuel deps i visited acc deps2 visited2 acc2,
      processDeps idx depth fuel deps i visited acc = some (deps2, visited2, acc2) →
      deps2 = deps ∧
        ∀ e ∈ acc2, e ∈ acc ∨ (e.1 ∈ deps ∧ e.2.2 = depth + 1) := by
  intro fuel
  induction fuel with
  | zero => intro deps i visited acc deps2 visited2 acc2 h; exact Option.noConfusion h
  | succ fuel ih =>
    intro deps i visited acc deps2 visited2 acc2 h
    rw [processDeps] at h
    by_cases hi : i < deps.length
    · rw [dif_pos hi] at h
      by_cases h1 : deps.get ⟨i, hi⟩ ∉ visited ∧ memIdx idx (deps.get ⟨i, hi⟩) = true
      · rw [if_pos h1] at h
        obtain ⟨hd, he⟩ := ih _ _ _ _ _ _ _ h
        refine ⟨hd, fun e hme => ?_⟩
        rcases he e hme with hin | hdep
        · rcases List.mem_append.mp hin with hin2 | hin2
          · exact Or.inl hin2
          · right
            rcases List.mem_singleton.mp hin2 with rfl
            exact ⟨List.get_mem deps i hi, rfl⟩
        · exact Or.inr hdep
      · rw [if_neg h1] at h
        by_cases h2 : memIdx idx (deps.get ⟨i, hi⟩) = false
        · rw [if_pos h2] at h
          exfalso
          rw [processDeps_absent_none idx depth fuel _ _ _ _
            ⟨deps.length, deps.get ⟨i, hi⟩, hi, by rw [List.getElem?_concat_length], h2⟩] at h
          exact Option.noConfusion h
        · rw [if_neg h2] at h
          exact ih _ _ _ _ _ _ _ h
    · rw [dif_neg hi] at h
      obtain ⟨rfl, rfl, rfl⟩ : deps = deps2 ∧ visited = visited2 ∧ acc = acc2 := by
        injection h with h'
        injection h' with ha hb
        injection hb with hb hc
        exact ⟨ha, hb, hc⟩
      exact ⟨rfl, fun e hme => Or.inl hme⟩

/- Step equations for the BFS loop, isolating the control flow of one
iteration. -/

theorem bfs_skip (max_depth fuel : Nat) (idx : PackageIndex) (cur ver : String)
    (depth : Nat) (rest : List (String × String × Nat)) (visited : List String)
    (graph : Graph) (hd : max_depth ≤ depth) :
    bfs max_depth (fuel + 1) idx ((cur, ver, depth) :: rest) visited graph =
      bfs max_depth fuel idx rest visited graph := by
  rw [bfs, if_pos hd]

theorem bfs_nodeps (max_depth fuel : Nat) (idx : PackageIndex) (cur ver : String)
    (depth : Nat) (rest : List (String × String × Nat)) (visited : List String)
    (graph : Graph) (hd : ¬ max_depth ≤ depth)
    (hg : get_package_dependencies cur ver idx = none) :
    bfs max_depth (fuel + 1) idx ((cur, ver, depth) :: rest) visited graph =
      bfs max_depth fuel idx rest visited graph := by
  rw [bfs, if_neg hd, hg]

theorem bfs_inner_none (max_depth fuel : Nat) (idx : PackageIndex) (cur ver : String)
    (depth : Nat) (rest : List (String × String × Nat)) (visited : List String)
    (graph : Graph) (deps : List String) (hd : ¬ max_depth ≤ depth)
    (hg : get_package_dependencies cur ver idx = some deps)
    (hp : processDeps idx depth (fuel + 1) deps 0 visited [] = none) :
    bfs max_depth (fuel + 1) idx ((cur, ver, depth) :: rest) visited graph = none := by
  rw [bfs, if_neg hd, hg]
  dsimp only
  rw [hp]

theorem bfs_expand (max_depth fuel : Nat) (idx : PackageIndex) (cur ver : String)
    (depth : Nat) (rest : List (String × String × Nat)) (visited : List String)
    (graph : Graph) (deps deps2 visited2 : List String)
    (newq : List (String × String × Nat)) (hd : ¬ max_depth ≤ depth)
    (hg : get_package_dependencies cur ver idx = some deps)
    (hp : processDeps idx depth (fuel + 1) deps 0 visited [] =
      some (deps2, visited2, newq)) :
    bfs max_depth (fuel + 1) idx ((cur, ver, depth) :: rest) visited graph =
      bfs max_depth fuel (setDeps idx cur deps2) (rest ++ newq) visited2
        (graph ++ [(cur, deps2)]) := by
  rw [bfs, if_neg hd, hg]
  dsimp only
  rw [hp]

/- Completed BFS runs leave the index unchanged. -/

theorem bfs_some_idx (max_depth : Nat) :
    ∀ fuel idx queue visited graph g idx2,
      bfs max_depth fuel idx queue visited graph = some (g, idx2) → idx2 = idx := by
  intro fuel
  induction fuel with
  | zero => intro idx queue visited graph g idx2 h; exact Option.noConfusion h
  | succ fuel ih =>
    intro idx queue visited graph g idx2 h
    match queue with
    | [] =>
      rw [bfs] at h
      injection h with h'
      injection h' with _ hb
      exact hb.symm
    | (cur, ver, depth) :: rest =>
      by_cases hd : max_depth ≤ depth
      · rw [bfs_skip max_depth fuel idx cur ver depth rest visited graph hd] at h
        exact ih _ _ _ _ _ _ h
      · cases hg : get_package_dependencies cur ver idx with
        | none =>
          rw [bfs_nodeps max_depth fuel idx cur ver depth rest visited graph hd hg] at h
          exact ih _ _ _ _ _ _ h
        | some deps =>
          cases hp : processDeps idx depth (fuel + 1) deps 0 visited [] with
          | none =>
            rw [bfs_inner_none max_depth fuel idx cur ver depth rest visited graph
              deps hd hg hp] at h
            exact Option.noConfusion h
          | some res =>
            obtain ⟨deps2, visited2, newq⟩ := res
            rw [bfs_expand max_depth fuel idx cur ver depth rest visited graph
              deps deps2 visited2 newq hd hg hp] at h
            obtain ⟨hdeq, -⟩ := processDeps_some idx depth _ _ _ _ _ _ _ _ hp
            obtain ⟨r, hr, hrd⟩ : ∃ r, lookupIdx idx cur = some r ∧ r.dependencies = deps := by
              unfold get_package_dependencies at hg
              cases hl : lookupIdx idx cur with
              | none => rw [hl] at hg; exact Option.noConfusion hg
              | some r =>
                rw [hl] at hg
                refine ⟨r, rfl, ?_⟩
                injection hg
            have hset : setDeps idx cur deps2 = idx := by
              rw [hdeq, ← hrd]
              exact setDeps_self idx cur r hr
            rw [hset] at h
            exact ih _ _ _ _ _ _ h

/-- Index with a single package whose dependency list names a package
absent from the index. -/
def divIdx : PackageIndex := [("A", ⟨"1.0", ["libx"], "Package A"⟩)]

/-- C1: the claim states that build_dependency_graph runs to completion on
every finite index, in particular when an expanded dependency list contains
a name absent from the index.  The code does not: expanding A appends the
absent name libx to the list being iterated (the graph entry aliases the
record list), so the inner loop never reaches the end of the list.  The
embedded function returns none for every fuel, i.e. the source diverges. -/
theorem build_graph_diverges_on_absent_dep :
    ∀ fuel, build_dependency_graph fuel "A" "latest" divIdx 1 = none := by
  intro fuel
  cases fuel with
  | zero => rfl
  | succ fuel =>
    have hg : get_package_dependencies "A" "latest" divIdx = some ["libx"] := rfl
    have hp : processDeps divIdx 0 (fuel + 1) ["libx"] 0 ["A"] [] = none :=
      processDeps_absent_none divIdx 0 (fuel + 1) ["libx"] 0 ["A"] []
        ⟨0, "libx", Nat.le_refl 0, rfl, rfl⟩
    exact bfs_inner_none 1 fuel divIdx "A" "latest" 0 [] ["A"] [] ["libx"]
      (by omega) hg hp

/-- Index for the unresolvable-dependency scenario of the spec: P depends
on Q (present) and libssl (absent). -/
def unresIdx : PackageIndex :=
  [("P", ⟨"1.0", ["Q", "libssl"], "Package P"⟩), ("Q", ⟨"1.0", [], "Package Q"⟩)]

/-- C5: the claim states that a dependency name absent from the index is
recorded exactly once, verbatim, as a terminal edge of the built graph.
In the code the graph entry aliases the record list and the absent name is
re-appended to it on every encounter while the loop iterates that same
list, so the build never returns a graph at all: the embedding returns
none for every fuel on the scenario index. -/
theorem build_graph_diverges_on_unresolved :
    ∀ fuel, build_dependency_graph fuel "P" "latest" unresIdx 2 = none := by
  intro fuel
  cases fuel with
  | zero => rfl
  | succ fuel =>
    have hg : get_package_dependencies "P" "latest" unresIdx = some ["Q", "libssl"] := rfl
    have hp : processDeps unresIdx 0 (fuel + 1) ["Q", "libssl"] 0 ["P"] [] = none :=
      processDeps_absent_none unresIdx 0 (fuel + 1) ["Q", "libssl"] 0 ["P"] []
        ⟨1, "libssl", Nat.zero_le 1, rfl, rfl⟩
    exact bfs_inner_none 2 fuel unresIdx "P" "latest" 0 [] ["P"] [] ["Q", "libssl"]
      (by omega) hg hp

/-- C4: whenever build_dependency_graph completes, the index it returns is
exactly the index it was given: every record version, dependency sequence
and description is unchanged.  (The only mutating statement of the source,
the setdefault append, is on a path that never completes; see C1.) -/
theorem build_graph_preserves_index (fuel : Nat) (package_name version : String)
    (packages_data : PackageIndex) (max_depth : Nat) (g : Graph)
    (idx2 : PackageIndex)
    (h : build_dependency_graph fuel package_name version packages_data max_depth =
      some (g, idx2)) :
    idx2 = packages_data :=
  bfs_some_idx max_depth fuel packages_data _ _ _ g idx2 h

/-- Graph built from exIdx with root A and depth 2. -/
def exGraph2 : Graph := [("A", ["B", "C"]), ("B", ["D"]), ("C", ["D", "E"])]

/-- Witness for C4 at a concrete input. -/
theorem build_graph_preserves_index_witness :
    build_dependency_graph 50 "A" "latest" exIdx 2 = some (exGraph2, exIdx) ∧
      exIdx = exIdx :=
  ⟨by decide,
    build_graph_preserves_index 50 "A" "latest" exIdx 2 exGraph2 exIdx (by decide)⟩

/-- C3: build_dependency_graph is idempotent.  A completed call leaves the
index object unchanged, and a second call on that index with the same root,
version and depth returns the identical graph: same keys and the same
per-key dependency sequence in the same order (equality of the association
lists). -/
theorem build_graph_idempotent (fuel : Nat) (package_name version : String)
    (packages_data : PackageIndex) (max_depth : Nat) (g : Graph)
    (idx2 : PackageIndex)
    (h : build_dependency_graph fuel package_name version packages_data max_depth =
      some (g, idx2)) :
    idx2 = packages_data ∧
      build_dependency_graph fuel package_name version idx2 max_depth =
        some (g, idx2) := by
  have he : idx2 = packages_data :=
    bfs_some_idx max_depth fuel packages_data _ _ _ g idx2 h
  subst he
  exact ⟨rfl, h⟩

/-- Witness for C3 at a concrete input. -/
theorem build_graph_idempotent_witness :
    build_dependency_graph 100 "A" "latest" exIdx 3 = some (exGraph, exIdx) ∧
      (exIdx = exIdx ∧
        build_dependency_graph 100 "A" "latest" exIdx 3 = some (exGraph, exIdx)) :=
  ⟨by decide,
    build_graph_idempotent 100 "A" "latest" exIdx 3 exGraph exIdx (by decide)⟩

/-- C7: on the literal scenario index with root A and depth 3 the build
returns the graph with keys A, B, C, D, E, and detect_cycles on that graph
returns the cycle A, C, E, A, whose first and last elements are both A. -/
theorem scenario_literal :
    build_dependency_graph 100 "A" "latest" exIdx 3 = some (exGraph, exIdx) ∧
      keysOf exGraph = ["A", "B", "C", "D", "E"] ∧
      detect_cycles exGraph = some ["A", "C", "E", "A"] ∧
      (["A", "C", "E", "A"] : List String).head? = some "A" ∧
      (["A", "C", "E", "A"] : List String).getLast? = some "A" := by
  decide

/-- C9: topological_sort returns the empty order with hasCycle false on the
empty graph, and in general the hasCycle flag is true exactly when the
length of the returned order differs from the number of graph keys. -/
theorem topological_sort_hasCycle_iff :
    topological_sort ([] : Graph) = ([], false) ∧
      ∀ g : Graph,
        ((topological_sort g).2 = true ↔
          (topological_sort g).1.length ≠ g.length) := by
  refine ⟨rfl, fun g => ?_⟩
  by_cases h : g.isEmpty
  · have hg : g = [] := List.isEmpty_iff.mp h
    subst hg
    simp [topological_sort]
  · simp [topological_sort, h]

/-- C10: get_package_dependencies returns None exactly when the name is
absent from the index, and for a present name returns the record dependency
sequence (never None), regardless of the requested version. -/
theorem get_package_dependencies_spec (idx : PackageIndex) (n v : String) :
    (get_package_dependencies n v idx = none ↔ lookupIdx idx n = none) ∧
      (∀ r, lookupIdx idx n = some r →
        get_package_dependencies n v idx = some r.dependencies) := by
  constructor
  · simp [get_package_dependencies]
  · intro r h
    simp [get_package_dependencies, h]

/-- Index with one package whose record has an empty dependency list. -/
def wIdx : PackageIndex := [("Z", ⟨"1.0", [], "Package Z"⟩)]

/-- Witness for C10: a present name with an empty dependency list and a
mismatching requested version still yields the dependency sequence. -/
theorem get_package_dependencies_spec_witness :
    lookupIdx wIdx "Z" = some ⟨"1.0", [], "Package Z"⟩ ∧
      get_package_dependencies "Z" "9.9" wIdx = some [] :=
  ⟨by decide,
    (get_package_dependencies_spec wIdx "Z" "9.9").2 ⟨"1.0", [], "Package Z"⟩ (by decide)⟩

/-- Reachability from the root in exactly the given number of hops along
index dependency edges (the root is at hop 0; one hop follows one entry of
a record dependency list). -/
inductive ReachN (idx : PackageIndex) (root : String) : Nat → String → Prop
  | zero : ReachN idx root 0 root
  | step {n : Nat} {m dep : String} {r : PackageRecord} :
      ReachN idx root n m → lookupIdx idx m = some r → dep ∈ r.dependencies →
      ReachN idx root (n + 1) dep

/- BFS invariant: every queue entry carries its own hop count, and every
graph key was expanded at a depth strictly below max_depth. -/

theorem bfs_keys_reach (max_depth : Nat) (idx : PackageIndex) (root : String) :
    ∀ fuel queue visited graph g idx2,
      (∀ e ∈ queue, ReachN idx root e.2.2 e.1) →
      (∀ kv ∈ graph, ∃ dp, dp < max_depth ∧ ReachN idx root dp kv.1) →
      bfs max_depth fuel idx queue visited graph = some (g, idx2) →
      ∀ kv ∈ g, ∃ dp, dp < max_depth ∧ ReachN idx root dp kv.1 := by
  intro fuel
  induction fuel with
  | zero => intro queue visited graph g idx2 _ _ h; exact Option.noConfusion h
  | succ fuel ih =>
    intro queue visited graph g idx2 hq hgr h
    match queue with
    | [] =>
      rw [bfs] at h
      obtain ⟨rfl, -⟩ : graph = g ∧ idx = idx2 := by
        injection h with h'
        injection h' with ha hb
        exact ⟨ha, hb⟩
      exact hgr
    | (cur, ver, depth) :: rest =>
      have hqrest : ∀ e ∈ rest, ReachN idx root e.2.2 e.1 :=
        fun e he => hq e (List.mem_cons_of_mem _ he)
      by_cases hd : max_depth ≤ depth
      · rw [bfs_skip max_depth fuel idx cur ver depth rest visited graph hd] at h
        exact ih _ _ _ _ _ hqrest hgr h
      · cases hg : get_package_dependencies cur ver idx with
        | none =>
          rw [bfs_nodeps max_depth fuel idx cur ver depth rest visited graph hd hg] at h
          exact ih _ _ _ _ _ hqrest hgr h
        | some deps =>
          cases hp : processDeps idx depth (fuel + 1) deps 0 visited [] with
          | none =>
            rw [bfs_inner_none max_depth fuel idx cur ver depth rest visited graph
              deps hd hg hp] at h
            exact Option.noConfusion h
          | some res =>
            obtain ⟨deps2, visited2, newq⟩ := res
            rw [bfs_expand max_depth fuel idx cur ver depth rest visited graph
              deps deps2 visited2 newq hd hg hp] at h
            obtain ⟨hdeq, hacc⟩ := processDeps_some idx depth _ _ _ _ _ _ _ _ hp
            obtain ⟨r, hr, hrd⟩ :
                ∃ r, lookupIdx idx cur = some r ∧ r.dependencies = deps := by
              unfold get_package_dependencies at hg
              cases hl : lookupIdx idx cur with
              | none => rw [hl] at hg; exact Option.noConfusion hg
              | some r =>
                rw [hl] at hg
                refine ⟨r, rfl, ?_⟩
                injection hg
            have hset : setDeps idx cur deps2 = idx := by
              rw [hdeq, ← hrd]
              exact setDeps_self idx cur r hr
            rw [hset] at h
            have hcur : ReachN idx root depth cur :=
              hq (cur, ver, depth) (List.mem_cons_self _ _)
            refine ih _ _ _ _ _ ?_ ?_ h
            · intro e he
              rcases List.mem_append.mp he with he2 | he2
              · exact hqrest e he2
              · rcases hacc e he2 with he3 | ⟨hed, hee⟩
                · exact absurd he3 (List.not_mem_nil e)
                · rw [hee]
                  exact ReachN.step hcur hr (hrd ▸ hed)
            · intro kv hkv
              rcases List.mem_append.mp hkv with hkv2 | hkv2
              · exact hgr kv hkv2
              · rcases List.mem_singleton.mp hkv2 with rfl
                exact ⟨depth, Nat.lt_of_not_le hd, hcur⟩

/-- C8: for maxDepth d of at least 1, every key of a completed build is a
package expanded at a BFS depth strictly below d, hence reachable from the
root within d hops (root at hop 0); in particular a node dequeued at depth
d is never expanded and contributes no key. -/
theorem build_graph_keys_reachable (fuel : Nat) (root version : String)
    (idx : PackageIndex) (max_depth : Nat) (g : Graph) (idx2 : PackageIndex)
    (_hdepth : 1 ≤ max_depth)
    (h : build_dependency_graph fuel root version idx max_depth = some (g, idx2)) :
    ∀ kv ∈ g, ∃ dp, dp < max_depth ∧ ReachN idx root dp kv.1 := by
  refine bfs_keys_reach max_depth idx root fuel [(root, version, 0)] [root] [] g idx2
    ?_ ?_ h
  · intro e he
    rcases List.mem_singleton.mp he with rfl
    exact ReachN.zero
  · intro kv hkv
    exact absurd hkv (List.not_mem_nil kv)

/-- Witness for C8: in the depth-3 scenario build, the key E is reachable
from the root A in fewer than 3 hops. -/
theorem build_graph_keys_reachable_witness :
    1 ≤ 3 ∧ (∃ dp, dp < 3 ∧ ReachN exIdx "A" dp "E") :=
  ⟨by decide,
    build_graph_keys_reachable 100 "A" "latest" exIdx 3 exGraph exIdx (by decide)
      (by decide) ("E", ["A"]) (by decide)⟩

/-
Characterization of the two auxiliary dicts of topological_sort.  The code
computes, for each node, the number of its own dependencies that are graph
keys (counting occurrences), not the number of its dependents.
-/

/-- Count of a node's dependencies that are keys of the graph. -/
def countKeyDeps (g : Graph) (p : String) : Nat :=
  ((adjOf g p).filter (fun d => isKey g d)).length

theorem isKey_iff (g : Graph) (n : String) : isKey g n = true ↔ n ∈ keysOf g := by
  simp [isKey, keysOf, List.any_eq_true]

theorem inv_graph_inner_apply (g : Graph) (pkg : String) (deps : List String) :
    ∀ (acc2 : String → List String) (d : String),
      (deps.foldl
        (fun acc2 dep =>
          if isKey g dep = true then
            fun x => if x = dep then acc2 dep ++ [pkg] else acc2 x
          else acc2)
        acc2) d
        = acc2 d ++
          (if isKey g d = true then List.replicate (deps.count d) pkg else []) := by
  induction deps with
  | nil => intro acc2 d; simp
  | cons x t ih =>
    intro acc2 d
    rw [List.foldl_cons, ih]
    by_cases hx : isKey g x = true
    · rw [if_pos hx]
      by_cases hdx : d = x
      · subst hdx
        rw [if_pos hx, if_pos hx]
        simp [List.count_cons, List.replicate_succ, List.append_assoc]
      · rw [if_neg hdx]
        have hcnt : (x :: t).count d = t.count d := by
          simp [List.count_cons, Ne.symm hdx]
        rw [hcnt]
    · rw [if_neg hx]
      by_cases hdx : d = x
      · subst hdx
        rw [if_neg hx, if_neg hx]
      · have hcnt : (x :: t).count d = t.count d := by
          simp [List.count_cons, Ne.symm hdx]
        rw [hcnt]

theorem inv_graph_fun_apply (g : Graph) :
    ∀ (L : Graph) (acc : String → List String) (d : String),
      (L.foldl
        (fun acc p =>
          p.2.foldl
            (fun acc2 dep =>
              if isKey g dep = true then
                fun x => if x = dep then acc2 dep ++ [p.1] else acc2 x
              else acc2)
            acc)
        acc) d
        = acc d ++
          (if isKey g d = true then
            (L.map (fun p => List.replicate (p.2.count d) p.1)).flatten
          else []) := by
  intro L
  induction L with
  | nil => intro acc d; simp
  | cons p T ih =>
    intro acc d
    rw [List.foldl_cons, ih, inv_graph_inner_apply]
    by_cases hd : isKey g d = true
    · rw [if_pos hd, if_pos hd, if_pos hd]
      simp [List.append_assoc]
    · rw [if_neg hd, if_neg hd, if_neg hd]
      simp

theorem inv_graph_fun_eq (g : Graph) (d : String) :
    inv_graph_fun g d =
      if isKey g d = true then
        (g.map (fun p => List.replicate (p.2.count d) p.1)).flatten
      else [] := by
  have h := inv_graph_fun_apply g g (fun _ => []) d
  rw [show inv_graph_fun g d = (g.foldl
    (fun acc p =>
      p.2.foldl
        (fun acc2 dep =>
          if isKey g dep = true then
            fun x => if x = dep then acc2 dep ++ [p.1] else acc2 x
          else acc2)
        acc)
    (fun _ => [])) d from rfl, h]
  simp

theorem in_degree_inner_apply (lst : List String) :
    ∀ (degf : String → Int) (p : String),
      (lst.foldl (fun d2 dep => fun x => if x = dep then d2 dep + 1 else d2 x) degf) p
        = degf p + (lst.count p : Int) := by
  induction lst with
  | nil => intro degf p; simp
  | cons x t ih =>
    intro degf p
    rw [List.foldl_cons, ih]
    by_cases hpx : p = x
    · subst hpx
      simp [List.count_cons]
      ring
    · rw [if_neg hpx]
      have hcnt : (x :: t).count p = t.count p := by
        simp [List.count_cons, Ne.symm hpx]
      rw [hcnt]

theorem in_degree_fun_apply (inv : String → List String) :
    ∀ (L : Graph) (degf : String → Int) (p : String),
      (L.foldl
        (fun deg q =>
          (inv q.1).foldl
            (fun d2 dep => fun x => if x = dep then d2 dep + 1 else d2 x)
            deg)
        degf) p
        = degf p + ((L.map (fun q => ((inv q.1).count p : Int))).sum) := by
  intro L
  induction L with
  | nil => intro degf p; simp
  | cons q T ih =>
    intro degf p
    rw [List.foldl_cons, ih, in_degree_inner_apply]
    simp [add_assoc]

theorem in_degree_fun_eq (g : Graph) (inv : String → List String) (p : String) :
    in_degree_fun g inv p = ((g.map (fun q => ((inv q.1).count p : Int))).sum) := by
  have h := in_degree_fun_apply inv g (fun _ => 0) p
  rw [show in_degree_fun g inv p = (g.foldl
    (fun deg q =>
      (inv q.1).foldl
        (fun d2 dep => fun x => if x = dep then d2 dep + 1 else d2 x)
        deg)
    (fun _ => 0)) p from rfl, h]
  simp

theorem sum_pick_entry (n p : String) :
    ∀ L : Graph, (keysOf L).Nodup → p ∈ keysOf L →
      (L.map (fun q => if p = q.1 then q.2.count n else 0)).sum = (adjOf L p).count n := by
  intro L
  induction L with
  | nil =>
    intro _ hp
    simp [keysOf] at hp
  | cons q T ih =>
    intro hnd hp
    have hndc : q.1 ∉ keysOf T ∧ (keysOf T).Nodup :=
      List.nodup_cons.mp (show (q.1 :: keysOf T).Nodup from hnd)
    rw [List.map_cons, List.sum_cons]
    by_cases hq : p = q.1
    · rw [if_pos hq]
      have hbe : (q.1 == p) = true := beq_iff_eq.mpr hq.symm
      have hadj : adjOf (q :: T) p = q.2 := by
        simp [adjOf, List.find?_cons, hbe]
      have hz : (T.map (fun r => if p = r.1 then r.2.count n else 0)).sum = 0 := by
        apply List.sum_eq_zero
        intro x hx
        rcases List.mem_map.mp hx with ⟨r, hr, rfl⟩
        have hne : p ≠ r.1 := by
          intro he
          exact hndc.1 (hq ▸ he ▸ List.mem_map_of_mem Prod.fst hr)
        rw [if_neg hne]
      rw [hz, hadj]
      simp
    · rw [if_neg hq]
      have hbe : ¬ (q.1 == p) = true := by
        intro hb
        exact hq (beq_iff_eq.mp hb).symm
      have hbf : (q.1 == p) = false := by
        cases hb : (q.1 == p) with
        | false => rfl
        | true => exact absurd hb hbe
      have hadj : adjOf (q :: T) p = adjOf T p := by
        simp [adjOf, List.find?_cons, hbf]
      have hpT : p ∈ keysOf T := by
        rcases List.mem_cons.mp (show p ∈ q.1 :: keysOf T from hp) with he | he
        · exact absurd he hq
        · exact he
      rw [hadj, ih hndc.2 hpT]
      simp

theorem count_inv_graph (g : Graph) (hnd : (keysOf g).Nodup) (p n : String)
    (hp : p ∈ keysOf g) (hn : n ∈ keysOf g) :
    (inv_graph_fun g n).count p = (adjOf g p).count n := by
  rw [inv_graph_fun_eq, if_pos ((isKey_iff g n).mpr hn), List.count_flatten,
    List.map_map]
  have hcg : ∀ q ∈ g,
      (List.count p ∘ fun q => List.replicate (q.2.count n) q.1) q
        = if p = q.1 then q.2.count n else 0 := by
    intro q _
    simp only [Function.comp_apply, List.count_replicate]
    by_cases hpq : p = q.1
    · rw [if_pos (beq_iff_eq.mpr hpq.symm), if_pos hpq]
    · rw [if_neg (fun hb => hpq (beq_iff_eq.mp hb).symm), if_neg hpq]
  rw [List.map_congr_left hcg]
  exact sum_pick_entry n p g hnd hp

theorem count_filter_mem_cons (k : String) (t : List String) (hk : k ∉ t) :
    ∀ l : List String,
      (l.filter (fun d => decide (d ∈ k :: t))).length
        = l.count k + (l.filter (fun d => decide (d ∈ t))).length := by
  intro l
  induction l with
  | nil => simp
  | cons x l2 ih =>
    rw [List.filter_cons, List.filter_cons, List.count_cons]
    by_cases hx : x = k
    · subst hx
      rw [if_pos (show decide (x ∈ x :: t) = true by simp)]
      rw [if_neg (show ¬ decide (x ∈ t) = true by simp [hk])]
      rw [if_pos (beq_self_eq_true x)]
      rw [List.length_cons, ih]
      omega
    · have hd1 : decide (x ∈ k :: t) = decide (x ∈ t) :=
        decide_eq_decide.mpr (by simp [List.mem_cons, hx])
      rw [hd1, if_neg (show ¬ (x == k) = true from fun hb => hx (beq_iff_eq.mp hb))]
      cases hd : decide (x ∈ t) with
      | true =>
        rw [if_pos rfl, if_pos rfl, List.length_cons, List.length_cons, ih]
        omega
      | false =>
        rw [if_neg Bool.false_ne_true, if_neg Bool.false_ne_true, ih]
        omega

theorem sum_count_keys (l : List String) :
    ∀ ks : List String, ks.Nodup →
      (ks.map (fun k => l.count k)).sum
        = (l.filter (fun d => decide (d ∈ ks))).length := by
  intro ks
  induction ks with
  | nil => simp
  | cons k t ih =>
    intro hnd
    obtain ⟨hk, hndt⟩ := List.nodup_cons.mp hnd
    rw [List.map_cons, List.sum_cons, ih hndt, count_filter_mem_cons k t hk l]

theorem isKey_eq_decide (g : Graph) (d : String) :
    isKey g d = decide (d ∈ keysOf g) := by
  by_cases h : d ∈ keysOf g
  · rw [(isKey_iff g d).mpr h]
    simp [h]
  · cases hb : isKey g d with
    | false => simp [h]
    | true => exact absurd ((isKey_iff g d).mp hb) h

/-- In-degree as the code computes it: for every key p, the counter of p
ends up as the number of entries of p's own adjacency list that are graph
keys (occurrences counted). -/
theorem in_degree_eq_countKeyDeps (g : Graph) (hnd : (keysOf g).Nodup) (p : String)
    (hp : p ∈ keysOf g) :
    in_degree_fun g (inv_graph_fun g) p = (countKeyDeps g p : Int) := by
  rw [in_degree_fun_eq]
  have hterm : ∀ q ∈ g, ((inv_graph_fun g q.1).count p : Int)
      = (((adjOf g p).count q.1 : Nat) : Int) := by
    intro q hq
    rw [count_inv_graph g hnd p q.1 hp (List.mem_map_of_mem Prod.fst hq)]
  rw [List.map_congr_left hterm]
  have hmm : g.map (fun q => (((adjOf g p).count q.1 : Nat) : Int))
      = ((g.map Prod.fst).map (fun k => (adjOf g p).count k)).map (fun m : Nat => (m : Int)) := by
    rw [List.map_map, List.map_map]
    rfl
  rw [hmm, ← Nat.cast_list_sum]
  rw [show g.map Prod.fst = keysOf g from rfl]
  rw [sum_count_keys (adjOf g p) (keysOf g) hnd]
  unfold countKeyDeps
  have hf : List.filter (fun d => decide (d ∈ keysOf g)) (adjOf g p)
      = List.filter (fun d => isKey g d) (adjOf g p) :=
    List.filter_congr (fun d _ => (isKey_eq_decide g d).symm)
  rw [hf]

/- First-in-first-out shape of the Kahn loop: the first elements popped
are exactly the elements of the initial queue, in order. -/

theorem decAll_cons (x : String) (t : List String) (acc : List String × (String → Int)) :
    decAll (x :: t) acc = decAll t
      (if acc.2 x - 1 = 0 then
        (acc.1 ++ [x], fun y => if y = x then acc.2 x - 1 else acc.2 y)
      else
        (acc.1, fun y => if y = x then acc.2 x - 1 else acc.2 y)) := rfl

theorem decAll_queue (lst : List String) :
    ∀ acc : List String × (String → Int), ∃ ex, (decAll lst acc).1 = acc.1 ++ ex := by
  induction lst with
  | nil => intro acc; exact ⟨[], by simp [decAll]⟩
  | cons x t ih =>
    intro acc
    rw [decAll_cons]
    by_cases hz : acc.2 x - 1 = 0
    · rw [if_pos hz]
      obtain ⟨ex, hex⟩ := ih (acc.1 ++ [x], fun y => if y = x then acc.2 x - 1 else acc.2 y)
      refine ⟨[x] ++ ex, ?_⟩
      rw [hex]
      simp
    · rw [if_neg hz]
      exact ih (acc.1, fun y => if y = x then acc.2 x - 1 else acc.2 y)

theorem kahnLoop_queue_first (inv : String → List String) :
    ∀ fuel queue deg order,
      ∃ tail, kahnLoop inv fuel queue deg order = order ++ queue.take fuel ++ tail := by
  intro fuel
  induction fuel with
  | zero =>
    intro queue deg order
    exact ⟨[], by simp [kahnLoop]⟩
  | succ fuel ih =>
    intro queue deg order
    match queue with
    | [] => exact ⟨[], by simp [kahnLoop]⟩
    | node :: rest =>
      rw [kahnLoop]
      obtain ⟨ex, hex⟩ := decAll_queue (inv node) (rest, deg)
      obtain ⟨t, ht⟩ := ih (decAll (inv node) (rest, deg)).1 (decAll (inv node) (rest, deg)).2
        (order ++ [node])
      refine ⟨ex.take (fuel - rest.length) ++ t, ?_⟩
      rw [ht, hex, List.take_append_eq_append_take, List.take_succ_cons]
      simp [List.append_assoc]

/-- Two-node graph: A depends on B, B on nothing. -/
def g2ex : Graph := [("A", ["B"]), ("B", [])]

/-- C2 counterexample: in the graph A -> B the code gives B the in-degree 0
although one graph-key node (A) depends on B, it gives A the in-degree 1
although no graph-key node depends on A, and the returned order lists B
first even though B has a dependent within the graph and A has none.  A run
conforming to the claim would seed the queue with A and list A first. -/
theorem topological_sort_in_degree_counterexample :
    in_degree_fun g2ex (inv_graph_fun g2ex) "B" = 0 ∧
      ((keysOf g2ex).filter (fun q => (adjOf g2ex q).contains "B")).length = 1 ∧
      in_degree_fun g2ex (inv_graph_fun g2ex) "A" = 1 ∧
      ((keysOf g2ex).filter (fun q => (adjOf g2ex q).contains "A")).length = 0 ∧
      (topological_sort g2ex).1 = ["B", "A"] := by
  decide

/-- C2 amended: the counter the code calls in_degree holds, for each key p,
the number of entries of p's own dependency list that are graph keys (its
dependencies within the graph, occurrences counted), not the number of its
dependents; the ready-queue is seeded with the keys whose count is zero, in
key order; and the returned order begins with exactly those seeded nodes,
so nodes with no dependencies-within-graph come first. -/
theorem topological_sort_in_degree (g : Graph) (hnd : (keysOf g).Nodup) :
    (∀ p ∈ keysOf g,
      in_degree_fun g (inv_graph_fun g) p = (countKeyDeps g p : Int)) ∧
      readyQueue g = (keysOf g).filter (fun n => ((countKeyDeps g n : Int) == 0)) ∧
      (topological_sort g).1.take (readyQueue g).length = readyQueue g := by
  refine ⟨fun p hp => in_degree_eq_countKeyDeps g hnd p hp, ?_, ?_⟩
  · unfold readyQueue
    apply List.filter_congr
    intro n hn
    rw [in_degree_eq_countKeyDeps g hnd n hn]
  · by_cases hemp : g.isEmpty
    · have hg : g = [] := List.isEmpty_iff.mp hemp
      subst hg
      simp [topological_sort, readyQueue, keysOf]
    · have hlen : (readyQueue g).length ≤ g.length := by
        have h1 : (readyQueue g).length ≤ (keysOf g).length :=
          List.length_filter_le _ _
        have h2 : (keysOf g).length = g.length := List.length_map g Prod.fst
        omega
      obtain ⟨tail, ht⟩ := kahnLoop_queue_first (inv_graph_fun g) g.length
        (readyQueue g) (in_degree_fun g (inv_graph_fun g)) []
      have hts : (topological_sort g).1
          = kahnLoop (inv_graph_fun g) g.length (readyQueue g)
            (in_degree_fun g (inv_graph_fun g)) [] := by
        simp [topological_sort, hemp]
      rw [hts, ht, List.nil_append, List.take_of_length_le hlen, List.take_left]

/-- Two-node graph for the C2 witness: X depends on Y. -/
def g2w : Graph := [("X", ["Y"]), ("Y", [])]

/-- Witness for C2 at a concrete graph with distinct keys. -/
theorem topological_sort_in_degree_witness :
    (keysOf g2w).Nodup ∧
      in_degree_fun g2w (inv_graph_fun g2w) "X" = (countKeyDeps g2w "X" : Int) ∧
      (topological_sort g2w).1.take (readyQueue g2w).length = readyQueue g2w :=
  ⟨by decide,
    (topological_sort_in_degree g2w (by decide)).1 "X" (by decide),
    (topological_sort_in_degree g2w (by decide)).2.2⟩

/-
Correctness of detect_cycles.  The graph relation: one edge from a key to
each entry of its adjacency list; names that are not keys have no
out-edges.  A cycle through v is a nonempty edge path from v to itself.
-/

/-- One directed edge of the graph. -/
def Edge (g : Graph) (a b : String) : Prop := b ∈ adjOf g a

/-- A directed cycle through v. -/
def HasCycle (g : Graph) (v : String) : Prop := Relation.TransGen (Edge g) v v

theorem mem_adjOf_allNames {g : Graph} {n x : String} (h : x ∈ adjOf g n) :
    x ∈ allNames g := by
  unfold adjOf at h
  cases hf : List.find? (fun p => p.1 == n) g with
  | none => rw [hf] at h; exact absurd h (List.not_mem_nil x)
  | some p =>
    rw [hf] at h
    have hpg : p ∈ g := List.mem_of_find?_eq_some hf
    have : x ∈ (g.map Prod.snd).flatten :=
      List.mem_flatten.mpr ⟨p.2, List.mem_map_of_mem Prod.snd hpg, h⟩
    exact List.mem_append_right _ this

theorem edge_source_key {g : Graph} {a b : String} (h : Edge g a b) : a ∈ keysOf g := by
  unfold Edge adjOf at h
  cases hf : List.find? (fun p => p.1 == a) g with
  | none => rw [hf] at h; exact absurd h (List.not_mem_nil b)
  | some p =>
    have hpg : p ∈ g := List.mem_of_find?_eq_some hf
    have hpa := List.find?_some hf
    have : p.1 = a := beq_iff_eq.mp hpa
    rw [← this]
    exact List.mem_map_of_mem Prod.fst hpg

theorem keysOf_sub_allNames {g : Graph} {k : String} (h : k ∈ keysOf g) :
    k ∈ allNames g := List.mem_append_left _ h

/- Step equations for dfs and its neighbor loop. -/

theorem dfs_mem_path (g : Graph) (fuel : Nat) (n : String) (path vis : List String)
    (h : n ∈ path) :
    dfs g (fuel + 1) n path vis = (some (cycleFrom path n), vis) := by
  rw [dfs, if_pos h]

theorem dfs_mem_vis (g : Graph) (fuel : Nat) (n : String) (path vis : List String)
    (h1 : n ∉ path) (h2 : n ∈ vis) :
    dfs g (fuel + 1) n path vis = (none, vis) := by
  rw [dfs, if_neg h1, if_pos h2]

theorem dfsList_some (g : Graph) (fuel : Nat) (path2 : List String) :
    ∀ xs (c : List String) v, dfsList g fuel path2 xs (some c, v) = (some c, v)
  | [], _, _ => rfl
  | _ :: _, _, _ => rfl

theorem dfsList_cons_none (g : Graph) (fuel : Nat) (path2 : List String)
    (x : String) (xs : List String) (v : List String) :
    dfsList g fuel path2 (x :: xs) (none, v)
      = dfsList g fuel path2 xs (dfs g fuel x path2 v) := rfl

theorem foldl_dfs_some (g : Graph) (fuel : Nat) (path2 : List String) :
    ∀ (xs : List String) (c : List String) (v : List String),
      List.foldl
        (fun acc x =>
          match acc with
          | (some c, v) => (some c, v)
          | (none, v) => dfs g fuel x path2 v)
        (some c, v) xs = (some c, v) := by
  intro xs
  induction xs with
  | nil => intro c v; rfl
  | cons x xs ih => intro c v; exact ih c v

theorem foldl_eq_dfsList (g : Graph) (fuel : Nat) (path2 : List String) :
    ∀ (xs : List String) (acc : Option (List String) × List String),
      List.foldl
        (fun acc x =>
          match acc with
          | (some c, v) => (some c, v)
          | (none, v) => dfs g fuel x path2 v)
        acc xs = dfsList g fuel path2 xs acc := by
  intro xs
  induction xs with
  | nil => intro acc; rfl
  | cons x xs ih =>
    intro acc
    obtain ⟨o, v⟩ := acc
    cases o with
    | some c => rw [foldl_dfs_some, dfsList_some]
    | none =>
      rw [List.foldl_cons, dfsList_cons_none]
      exact ih (dfs g fuel x path2 v)

theorem dfs_fresh (g : Graph) (fuel : Nat) (n : String) (path vis : List String)
    (h1 : n ∉ path) (h2 : n ∉ vis) :
    dfs g (fuel + 1) n path vis
      = dfsList g fuel (path ++ [n]) (adjOf g n) (none, vis ++ [n]) := by
  rw [dfs, if_neg h1, if_neg h2, foldl_eq_dfsList]

theorem nodup_length_le_dedup {vis l : List String} (hnd : vis.Nodup)
    (hsub : ∀ v ∈ vis, v ∈ l) : vis.length ≤ l.dedup.length := by
  have h1 : vis.toFinset.card = vis.length := List.toFinset_card_of_nodup hnd
  have h2 : l.toFinset.card = l.dedup.length := List.card_toFinset l
  have h3 : vis.toFinset ⊆ l.toFinset := by
    intro x hx
    rw [List.mem_toFinset] at hx ⊢
    exact hsub x hx
  have h4 := Finset.card_le_card h3
  omega

/-- Invariant of the cycle search: every visited node that is not on the
current path has been fully explored without finding a cycle, and indeed
no cycle passes through it. -/
def INVP (g : Graph) (vis path : List String) : Prop :=
  ∀ v ∈ vis, v ∉ path → ¬ HasCycle g v

/-- Main invariant of dfs: a call that returns no cycle extends the visited
set by safe nodes only.  The fuel bound guarantees that the fuel never runs
out: every node that passes the guards is fresh, so the recursion depth is
at most the number of distinct names. -/
theorem dfs_none_invariant (g : Graph) :
    ∀ fuel n path vis vis2,
      vis.Nodup → (∀ v ∈ vis, v ∈ allNames g) → n ∈ allNames g →
      (allNames g).dedup.length + 1 ≤ fuel + vis.length →
      INVP g vis path →
      dfs g fuel n path vis = (none, vis2) →
      (∃ ex, vis2 = vis ++ ex) ∧ vis2.Nodup ∧ (∀ v ∈ vis2, v ∈ allNames g) ∧
        n ∈ vis2 ∧ INVP g vis2 path := by
  intro fuel
  induction fuel with
  | zero =>
    intro n path vis vis2 hnd hnames _ hfuel _ _
    exfalso
    have := nodup_length_le_dedup hnd hnames
    omega
  | succ fuel IHdfs =>
    have LIST : ∀ xs path2 vis vis2,
        (∀ x ∈ xs, x ∈ allNames g) → vis.Nodup → (∀ v ∈ vis, v ∈ allNames g) →
        (allNames g).dedup.length + 1 ≤ fuel + vis.length →
        INVP g vis path2 →
        dfsList g fuel path2 xs (none, vis) = (none, vis2) →
        (∃ ex, vis2 = vis ++ ex) ∧ vis2.Nodup ∧ (∀ v ∈ vis2, v ∈ allNames g) ∧
          INVP g vis2 path2 ∧ (∀ x ∈ xs, x ∉ path2 ∧ ¬ HasCycle g x) := by
      intro xs
      induction xs with
      | nil =>
        intro path2 vis vis2 _ hnd hnames _ hinv h
        obtain rfl : vis = vis2 := by
          injection h with _ h2
        exact ⟨⟨[], by simp⟩, hnd, hnames, hinv,
          fun y hy => absurd hy (List.not_mem_nil y)⟩
      | cons x xs ihx =>
        intro path2 vis vis2 hxs hnd hnames hfuel hinv h
        have hvlen : vis.length ≤ (allNames g).dedup.length :=
          nodup_length_le_dedup hnd hnames
        obtain ⟨fuel0, rfl⟩ : ∃ f0, fuel = f0 + 1 := ⟨fuel - 1, by omega⟩
        have hxp : x ∉ path2 := by
          intro hxp
          rw [dfsList_cons_none, dfs_mem_path g fuel0 x path2 vis hxp,
            dfsList_some] at h
          exact Option.noConfusion (congrArg Prod.fst h)
        cases hres : dfs g (fuel0 + 1) x path2 vis with
        | mk o v1 =>
          cases o with
          | some c =>
            rw [dfsList_cons_none, hres, dfsList_some] at h
            exact Option.noConfusion (congrArg Prod.fst h)
          | none =>
            rw [dfsList_cons_none, hres] at h
            obtain ⟨⟨ex1, hex1⟩, hnd1, hnames1, hxin, hinv1⟩ :=
              IHdfs x path2 vis v1 hnd hnames (hxs x (List.mem_cons_self x xs))
                hfuel hinv hres
            have hxcyc : ¬ HasCycle g x := hinv1 x hxin hxp
            have hlen1 : vis.length ≤ v1.length := by
              rw [hex1, List.length_append]
              omega
            obtain ⟨⟨ex2, hex2⟩, hnd2, hnames2, hinv2, hrest⟩ :=
              ihx path2 v1 vis2 (fun y hy => hxs y (List.mem_cons_of_mem x hy))
                hnd1 hnames1 (by omega) hinv1 h
            refine ⟨⟨ex1 ++ ex2, by rw [hex2, hex1, List.append_assoc]⟩,
              hnd2, hnames2, hinv2, ?_⟩
            intro y hy
            rcases List.mem_cons.mp hy with rfl | hy2
            · exact ⟨hxp, hxcyc⟩
            · exact hrest y hy2
    intro n path vis vis2 hnd hnames hn hfuel hinv h
    by_cases hpath : n ∈ path
    · rw [dfs_mem_path g fuel n path vis hpath] at h
      exact absurd (congrArg Prod.fst h) (by simp)
    · by_cases hvis : n ∈ vis
      · rw [dfs_mem_vis g fuel n path vis hpath hvis] at h
        obtain rfl : vis = vis2 := by
          injection h with _ h2
        exact ⟨⟨[], by simp⟩, hnd, hnames, hvis, hinv⟩
      · rw [dfs_fresh g fuel n path vis hpath hvis] at h
        have hnd' : (vis ++ [n]).Nodup := by
          simp [List.nodup_append, hnd, hvis]
        have hnames' : ∀ v ∈ vis ++ [n], v ∈ allNames g := by
          intro v hv
          rcases List.mem_append.mp hv with hv2 | hv2
          · exact hnames v hv2
          · rcases List.mem_singleton.mp hv2 with rfl
            exact hn
        have hfuel' : (allNames g).dedup.length + 1 ≤ fuel + (vis ++ [n]).length := by
          rw [List.length_append]
          simp only [List.length_singleton]
          omega
        have hinv' : INVP g (vis ++ [n]) (path ++ [n]) := by
          intro v hv hvp
          rcases List.mem_append.mp hv with hv2 | hv2
          · exact hinv v hv2 (fun hc => hvp (List.mem_append_left _ hc))
          · rcases List.mem_singleton.mp hv2 with rfl
            exact absurd (List.mem_append_right _ (List.mem_singleton_self v)) hvp
        obtain ⟨⟨ex, hex⟩, hnd2, hnames2, hinv2, hdead⟩ :=
          LIST (adjOf g n) (path ++ [n]) (vis ++ [n]) vis2
            (fun x hx => mem_adjOf_allNames hx) hnd' hnames' hfuel' hinv' h
        have hnin : n ∈ vis2 := by
          rw [hex]
          exact List.mem_append_left _
            (List.mem_append_right _ (List.mem_singleton_self n))
        refine ⟨⟨[n] ++ ex, by rw [hex, List.append_assoc]⟩, hnd2, hnames2, hnin, ?_⟩
        intro v hv hvp
        by_cases hvn : v = n
        · subst hvn
          intro hc
          obtain ⟨y, hny, hyn⟩ := Relation.TransGen.head'_iff.mp hc
          have hyd := hdead y hny
          exact hyd.2 (Relation.TransGen.tail' hyn hny)
        · have hvp' : v ∉ path ++ [n] := by
            intro hvc
            rcases List.mem_append.mp hvc with hvc2 | hvc2
            · exact hvp hvc2
            · exact hvn (List.mem_singleton.mp hvc2)
          exact hinv2 v hv hvp'

/- Step equations for the outer loop of detect_cycles. -/

theorem detectLoop_mem (g : Graph) (f : Nat) (n : String) (ks vis : List String)
    (h : n ∈ vis) : detectLoop g f (n :: ks) vis = detectLoop g f ks vis := by
  rw [detectLoop, if_pos h]

theorem detectLoop_found (g : Graph) (f : Nat) (n : String) (ks vis : List String)
    (c : List String) (v1 : List String) (h1 : n ∉ vis)
    (hd : dfs g f n [] vis = (some c, v1)) :
    detectLoop g f (n :: ks) vis = some c := by
  rw [detectLoop, if_neg h1, hd]

theorem detectLoop_next (g : Graph) (f : Nat) (n : String) (ks vis : List String)
    (v1 : List String) (h1 : n ∉ vis) (hd : dfs g f n [] vis = (none, v1)) :
    detectLoop g f (n :: ks) vis = detectLoop g f ks v1 := by
  rw [detectLoop, if_neg h1, hd]

/-- Completeness of the outer loop: when the whole run reports no cycle,
no cycle passes through any of the listed keys. -/
theorem detectLoop_none_acyclic (g : Graph) :
    ∀ ks vis, (∀ k ∈ ks, k ∈ allNames g) → vis.Nodup →
      (∀ v ∈ vis, v ∈ allNames g) → INVP g vis [] →
      detectLoop g ((allNames g).dedup.length + 1) ks vis = none →
      ∀ k ∈ ks, ¬ HasCycle g k := by
  intro ks
  induction ks with
  | nil =>
    intro vis _ _ _ _ _ k hk
    exact absurd hk (List.not_mem_nil k)
  | cons k0 ks ih =>
    intro vis hks hnd hnames hinv h
    by_cases hk0 : k0 ∈ vis
    · rw [detectLoop_mem g _ k0 ks vis hk0] at h
      intro k hk
      rcases List.mem_cons.mp hk with rfl | hk2
      · exact hinv k hk0 (List.not_mem_nil k)
      · exact ih vis (fun y hy => hks y (List.mem_cons_of_mem k0 hy))
          hnd hnames hinv h k hk2
    · cases hres : dfs g ((allNames g).dedup.length + 1) k0 [] vis with
      | mk o v1 =>
        cases o with
        | some c =>
          rw [detectLoop_found g _ k0 ks vis c v1 hk0 hres] at h
          exact Option.noConfusion h
        | none =>
          rw [detectLoop_next g _ k0 ks vis v1 hk0 hres] at h
          obtain ⟨⟨ex, hex⟩, hnd1, hnames1, hk0in, hinv1⟩ :=
            dfs_none_invariant g _ k0 [] vis v1 hnd hnames
              (hks k0 (List.mem_cons_self k0 ks)) (by omega)
              (fun v hv _ => hinv v hv (List.not_mem_nil v)) hres
          intro k hk
          rcases List.mem_cons.mp hk with rfl | hk2
          · exact hinv1 k hk0in (List.not_mem_nil k)
          · exact ih v1 (fun y hy => hks y (List.mem_cons_of_mem k0 hy))
              hnd1 hnames1 hinv1 h k hk2

/-- When detect_cycles returns None the graph has no directed cycle. -/
theorem detect_cycles_none_acyclic (g : Graph) (h : detect_cycles g = none) :
    ∀ v, ¬ HasCycle g v := by
  intro v hc
  obtain ⟨y, hvy, -⟩ := Relation.TransGen.head'_iff.mp hc
  have hvk : v ∈ keysOf g := edge_source_key hvy
  exact detectLoop_none_acyclic g (keysOf g) []
    (fun k hk => keysOf_sub_allNames hk) List.nodup_nil
    (fun x hx => absurd hx (List.not_mem_nil x))
    (fun x hx => absurd hx (List.not_mem_nil x)) h v hvk hc

/- Soundness: a reported cycle is a real edge path from its first node
back to itself. -/

theorem chain_getLast_transGen {r : String → String → Prop} :
    ∀ (l : List String) (a b : String), l ≠ [] → List.Chain r a l →
      l.getLast? = some b → Relation.TransGen r a b := by
  intro l
  induction l with
  | nil => intro a b h; exact absurd rfl h
  | cons x t ih =>
    intro a b _ hch hlast
    rw [List.chain_cons] at hch
    cases t with
    | nil =>
      obtain rfl : x = b := by
        simp only [List.getLast?_singleton] at hlast
        injection hlast
      exact Relation.TransGen.single hch.1
    | cons y t2 =>
      rw [List.getLast?_cons_cons] at hlast
      exact Relation.TransGen.head hch.1
        (ih x b (List.cons_ne_nil y t2) hch.2 hlast)

/-- The cycle extracted by dfs when it meets a node already on the path:
it is nonempty, starts and ends with that node, and witnesses a real
directed cycle. -/
theorem cycleFrom_spec (g : Graph) (path : List String) (n : String)
    (hmem : n ∈ path) (hch : List.Chain' (Edge g) (path ++ [n])) :
    HasCycle g n ∧ cycleFrom path n ≠ [] ∧
      (cycleFrom path n).head? = (cycleFrom path n).getLast? := by
  have hi : path.indexOf n < path.length := List.indexOf_lt_length.mpr hmem
  have hget : path[path.indexOf n] = n := List.getElem_indexOf hi
  have hdrop_eq : (path ++ [n]).drop (path.indexOf n)
      = path.drop (path.indexOf n) ++ [n] := by
    rw [List.drop_append_eq_append_drop]
    have hz : path.indexOf n - path.length = 0 := by omega
    rw [hz, List.drop_zero]
  have hch2 : List.Chain' (Edge g) (path.drop (path.indexOf n) ++ [n]) := by
    rw [← hdrop_eq]
    exact hch.drop _
  have hhead : (path.drop (path.indexOf n)).head? = some n := by
    rw [List.head?_eq_getElem?, List.getElem?_drop, Nat.add_zero,
      List.getElem?_eq_getElem hi, hget]
  cases hd : path.drop (path.indexOf n) with
  | nil =>
    rw [hd] at hhead
    exact absurd hhead (by simp)
  | cons h0 t =>
    rw [hd] at hhead
    obtain rfl : h0 = n := by
      simp only [List.head?_cons] at hhead
      injection hhead
    have hcf : cycleFrom path h0 = h0 :: (t ++ [h0]) := by
      unfold cycleFrom
      rw [hd]
      rfl
    rw [hd] at hch2
    refine ⟨?_, by rw [hcf]; exact List.cons_ne_nil _ _, ?_⟩
    · have hchain : List.Chain (Edge g) h0 (t ++ [h0]) := hch2
      exact chain_getLast_transGen (t ++ [h0]) h0 h0
        (by simp) hchain (List.getLast?_concat t)
    · rw [hcf, show h0 :: (t ++ [h0]) = (h0 :: t) ++ [h0] from rfl,
        List.getLast?_concat]
      simp

theorem dfs_some_cycle (g : Graph) :
    ∀ fuel n path vis c vis2,
      List.Chain' (Edge g) (path ++ [n]) →
      dfs g fuel n path vis = (some c, vis2) →
      (∃ v, HasCycle g v) ∧ c ≠ [] ∧ c.head? = c.getLast? := by
  intro fuel
  induction fuel with
  | zero =>
    intro n path vis c vis2 _ h
    exact Option.noConfusion (congrArg Prod.fst h)
  | succ fuel IH =>
    have LIST : ∀ xs path2 vis c vis2,
        (∀ x ∈ xs, List.Chain' (Edge g) (path2 ++ [x])) →
        dfsList g fuel path2 xs (none, vis) = (some c, vis2) →
        (∃ v, HasCycle g v) ∧ c ≠ [] ∧ c.head? = c.getLast? := by
      intro xs
      induction xs with
      | nil =>
        intro path2 vis c vis2 _ h
        exact Option.noConfusion (congrArg Prod.fst h)
      | cons x xs ihx =>
        intro path2 vis c vis2 hch h
        rw [dfsList_cons_none] at h
        cases hres : dfs g fuel x path2 vis with
        | mk o v1 =>
          cases o with
          | some c1 =>
            rw [hres, dfsList_some] at h
            have hc1 : c1 = c := by
              have h2 := congrArg Prod.fst h
              injection h2
            rw [hc1] at hres
            exact IH x path2 vis c v1 (hch x (List.mem_cons_self x xs)) hres
          | none =>
            rw [hres] at h
            exact ihx path2 v1 c vis2
              (fun y hy => hch y (List.mem_cons_of_mem x hy)) h
    intro n path vis c vis2 hch h
    by_cases hpath : n ∈ path
    · rw [dfs_mem_path g fuel n path vis hpath] at h
      obtain rfl : cycleFrom path n = c := by
        have := congrArg Prod.fst h
        injection this
      obtain ⟨hcyc, hne, hh⟩ := cycleFrom_spec g path n hpath hch
      exact ⟨⟨n, hcyc⟩, hne, hh⟩
    · by_cases hvis : n ∈ vis
      · rw [dfs_mem_vis g fuel n path vis hpath hvis] at h
        exact Option.noConfusion (congrArg Prod.fst h)
      · rw [dfs_fresh g fuel n path vis hpath hvis] at h
        refine LIST (adjOf g n) (path ++ [n]) (vis ++ [n]) c vis2 ?_ h
        intro x hx
        refine List.chain'_append.mpr ⟨hch, List.chain'_singleton x, ?_⟩
        intro a ha b hb
        rw [List.getLast?_concat] at ha
        simp only [List.head?_cons, Option.mem_def, Option.some.injEq] at ha hb
        subst ha
        subst hb
        exact hx

theorem detectLoop_some_cycle (g : Graph) (f : Nat) :
    ∀ ks vis c, detectLoop g f ks vis = some c →
      (∃ v, HasCycle g v) ∧ c ≠ [] ∧ c.head? = c.getLast? := by
  intro ks
  induction ks with
  | nil =>
    intro vis c h
    exact Option.noConfusion h
  | cons k ks ih =>
    intro vis c h
    by_cases hk : k ∈ vis
    · rw [detectLoop_mem g f k ks vis hk] at h
      exact ih vis c h
    · cases hres : dfs g f k [] vis with
      | mk o v1 =>
        cases o with
        | some c1 =>
          rw [detectLoop_found g f k ks vis c1 v1 hk hres] at h
          have hc1 : c1 = c := by injection h
          rw [hc1] at hres
          exact dfs_some_cycle g f k [] vis c v1 (List.chain'_singleton k) hres
        | none =>
          rw [detectLoop_next g f k ks vis v1 hk hres] at h
          exact ih v1 c h

/-- C6: detect_cycles returns None on every acyclic graph, and on every
graph with a directed cycle among its keys it returns a nonempty sequence
whose first and last elements are equal.  (Any edge starts at a key, so
every directed cycle is among the keys.) -/
theorem detect_cycles_correct (g : Graph) :
    ((∀ v, ¬ HasCycle g v) → detect_cycles g = none) ∧
      ((∃ v, HasCycle g v) →
        ∃ c, detect_cycles g = some c ∧ c ≠ [] ∧ c.head? = c.getLast?) := by
  constructor
  · intro hac
    cases hres : detect_cycles g with
    | none => rfl
    | some c =>
      exfalso
      obtain ⟨⟨v, hv⟩, -, -⟩ :=
        detectLoop_some_cycle g ((allNames g).dedup.length + 1) (keysOf g) [] c hres
      exact hac v hv
  · rintro ⟨v, hv⟩
    cases hres : detect_cycles g with
    | none => exact absurd hv (detect_cycles_none_acyclic g hres v)
    | some c =>
      obtain ⟨-, hne, hhl⟩ :=
        detectLoop_some_cycle g ((allNames g).dedup.length + 1) (keysOf g) [] c hres
      exact ⟨c, rfl, hne, hhl⟩

/-- One-node graph with a self-loop. -/
def selfLoopG : Graph := [("A", ["A"])]

/-- One-node graph with no edges. -/
def noEdgeG : Graph := [("Z", [])]

theorem noEdgeG_adj_nil (a : String) : adjOf noEdgeG a = [] := by
  unfold adjOf noEdgeG
  cases hf : List.find? (fun p => p.1 == a) [("Z", ([] : List String))] with
  | none => rfl
  | some p =>
    have hpg := List.mem_of_find?_eq_some hf
    rcases List.mem_singleton.mp hpg with rfl
    rfl

/-- Witness for C6: the self-loop graph has a cycle and detect_cycles
reports one with equal first and last element; the edgeless graph is
acyclic and detect_cycles returns None. -/
theorem detect_cycles_correct_witness :
    (∃ v, HasCycle selfLoopG v) ∧
      (∃ c, detect_cycles selfLoopG = some c ∧ c ≠ [] ∧ c.head? = c.getLast?) ∧
      detect_cycles noEdgeG = none := by
  have hedge : "A" ∈ adjOf selfLoopG "A" := by decide
  have hcyc : HasCycle selfLoopG "A" := Relation.TransGen.single hedge
  have hac : ∀ v, ¬ HasCycle noEdgeG v := by
    intro v hv
    obtain ⟨y, hy, -⟩ := Relation.TransGen.head'_iff.mp hv
    have : y ∈ adjOf noEdgeG v := hy
    rw [noEdgeG_adj_nil v] at this
    exact absurd this (List.not_mem_nil y)
  exact ⟨⟨"A", hcyc⟩, (detect_cycles_correct selfLoopG).2 ⟨"A", hcyc⟩,
    (detect_cycles_correct noEdgeG).1 hac⟩

end Main
